import Mathlib

/-!
Verification of the `queue_r` thread-safe double-ended queue (queue_r.c / queue_r.h).

The C code is shallowly embedded as follows.

* A C pointer is a `Nat`; `0` plays the role of `NULL`.
* The node heap is a partial function `Nat → Option Node`; `malloc` hands out
  the fresh address `nextAddr + 1` (a model counter bounding every address
  allocated so far), and `free` removes an address from the heap.
  `malloc` failure is an explicit boolean input `allocOk` of the push operations.
* The queue struct `queue_r_t` becomes the structure `QueueR` (head, tail,
  readers, destroyed); the pthread mutex and condition variables have no data
  content and are not represented.
* Operations are studied in a single-threaded execution model: a
  condition-variable wait whose predicate holds at entry can never be released
  by another thread, so it is modelled as the outcome `Res.blocked`; a NULL or
  dangling pointer dereference is the outcome `Res.crash` (undefined behavior);
  otherwise the operation returns `Res.ok` with the new state and return value.
  The code each operation runs after its wait has completed is kept as a
  separate `_locked` function, so behavior at a state where `destroyed` became
  true while the thread was waiting is expressible.
* The traversal callback is not interpreted: `q_traverse` returns the list of
  payloads it would pass to the callback, in call order.
-/

/-- Node of the queue (struct node_struct): payload pointer, prev, next. -/
structure Node where
  object : Nat
  prev : Nat
  next : Nat
deriving DecidableEq, Repr

/-- The node heap: a partial map from addresses to nodes. -/
abbrev Heap := Nat → Option Node

/-- Write a node at an address (covers malloc initialization and field stores). -/
def hupd (h : Heap) (a : Nat) (nd : Node) : Heap :=
  fun x => if x = a then some nd else h x

/-- Remove an address from the heap (free). -/
def hfree (h : Heap) (a : Nat) : Heap :=
  fun x => if x = a then none else h x

/-- The queue struct queue_r_t: head and tail pointers, reader count, destroyed
flag, plus the model counter `nextAddr` bounding all addresses allocated so far
(used to pick fresh addresses for malloc). -/
structure QueueR where
  heap : Heap
  nextAddr : Nat
  head : Nat
  tail : Nat
  readers : Nat
  destroyed : Bool

/-- Store through a node pointer into the `prev` field; writing through an
invalid pointer leaves the heap unchanged (unreachable under the invariant). -/
def setPrev (h : Heap) (a : Nat) (p : Nat) : Heap :=
  match h a with
  | none => h
  | some nd => hupd h a { nd with prev := p }

/-- Store through a node pointer into the `next` field; writing through an
invalid pointer leaves the heap unchanged (unreachable under the invariant). -/
def setNext (h : Heap) (a : Nat) (n : Nat) : Heap :=
  match h a with
  | none => h
  | some nd => hupd h a { nd with next := n }

/-- Outcome of an operation in the single-threaded model: normal return with
new state and return value, waiting forever on a condition variable, or
undefined behavior from an invalid dereference. -/
inductive Res (α : Type) where
  | ok (q : QueueR) (ret : α)
  | blocked
  | crash
deriving Inhabited

/-- read_lock waits while `(!queue->head && !queue->destroyed)`. -/
def readWait (q : QueueR) : Bool := q.head == 0 && !q.destroyed

/-- write_lock_push waits while `(queue->readers && !queue->destroyed)`. -/
def pushWait (q : QueueR) : Bool := q.readers != 0 && !q.destroyed

/-- write_lock_pop waits while `((!queue->head || queue->readers) && !queue->destroyed)`. -/
def popWait (q : QueueR) : Bool := (q.head == 0 || q.readers != 0) && !q.destroyed

/-- EXIT_SUCCESS of stdlib.h. -/
def EXIT_SUCCESS : Nat := 0

/-- EXIT_FAILURE of stdlib.h. -/
def EXIT_FAILURE : Nat := 1

/-- create_first_node: guard `(!queue || !object || queue->head || queue->tail)`
returns silently; otherwise head = malloc(...), head->object = object,
head->prev = head->next = NULL, tail = head. The result of malloc is NOT
checked: if allocation fails the assignment `queue->head->object = object`
dereferences NULL (crash). -/
def create_first_node (q : QueueR) (object : Nat) (allocOk : Bool) : Res Unit :=
  if object = 0 ∨ q.head ≠ 0 ∨ q.tail ≠ 0 then .ok q ()
  else if allocOk then
    let a := q.nextAddr + 1
    .ok { q with heap := hupd q.heap a ⟨object, 0, 0⟩,
                 nextAddr := a, head := a, tail := a } ()
  else .crash

/-- q_init: resets head, tail, readers, destroyed (assumes the queue is empty;
frees nothing). Returns EXIT_SUCCESS. The NULL-queue check is not modelled. -/
def q_init (q : QueueR) : QueueR × Nat :=
  ({ q with head := 0, tail := 0, readers := 0, destroyed := false }, EXIT_SUCCESS)

/-- Body of q_push_front after write_lock_push has returned. -/
def q_push_front_locked (q : QueueR) (object : Nat) (allocOk : Bool) : Res Nat :=
  if q.destroyed then .ok q EXIT_FAILURE
  else if q.head = 0 then
    match create_first_node q object allocOk with
    | .ok q1 _ => .ok q1 EXIT_SUCCESS
    | .blocked => .blocked
    | .crash => .crash
  else if allocOk then
    let a := q.nextAddr + 1
    let h1 := hupd q.heap a ⟨object, 0, q.head⟩
    .ok { q with heap := setPrev h1 q.head a, nextAddr := a, head := a } EXIT_SUCCESS
  else .ok q EXIT_FAILURE

/-- q_push_front: early failure on NULL object or destroyed queue, then
write_lock_push, then the locked body. -/
def q_push_front (q : QueueR) (object : Nat) (allocOk : Bool) : Res Nat :=
  if object = 0 ∨ q.destroyed then .ok q EXIT_FAILURE
  else if pushWait q then .blocked
  else q_push_front_locked q object allocOk

/-- Body of q_push_back after write_lock_push has returned. -/
def q_push_back_locked (q : QueueR) (object : Nat) (allocOk : Bool) : Res Nat :=
  if q.destroyed then .ok q EXIT_FAILURE
  else if q.tail = 0 then
    match create_first_node q object allocOk with
    | .ok q1 _ => .ok q1 EXIT_SUCCESS
    | .blocked => .blocked
    | .crash => .crash
  else if allocOk then
    let a := q.nextAddr + 1
    let h1 := hupd q.heap a ⟨object, q.tail, 0⟩
    .ok { q with heap := setNext h1 q.tail a, nextAddr := a, tail := a } EXIT_SUCCESS
  else .ok q EXIT_FAILURE

/-- q_push_back: early failure on NULL object or destroyed queue, then
write_lock_push, then the locked body. -/
def q_push_back (q : QueueR) (object : Nat) (allocOk : Bool) : Res Nat :=
  if object = 0 ∨ q.destroyed then .ok q EXIT_FAILURE
  else if pushWait q then .blocked
  else q_push_back_locked q object allocOk

/-- Body of q_pop_front after write_lock_pop has returned: if not destroyed,
read head->object and head->next, free the head node, and either clear both
pointers (sole node) or null the new head's prev. Returns the payload, or
NULL when destroyed. -/
def q_pop_front_locked (q : QueueR) : Res Nat :=
  if q.destroyed then .ok q 0
  else
    match q.heap q.head with
    | none => .crash
    | some nd =>
      if q.head = q.tail then
        .ok { q with heap := hfree q.heap q.head, head := 0, tail := 0 } nd.object
      else
        .ok { q with heap := setPrev (hfree q.heap q.head) nd.next 0,
                     head := nd.next } nd.object

/-- q_pop_front: early NULL on a destroyed queue, then write_lock_pop, then
the locked body. -/
def q_pop_front (q : QueueR) : Res Nat :=
  if q.destroyed then .ok q 0
  else if popWait q then .blocked
  else q_pop_front_locked q

/-- Body of q_pop_back after write_lock_pop has returned. -/
def q_pop_back_locked (q : QueueR) : Res Nat :=
  if q.destroyed then .ok q 0
  else
    match q.heap q.tail with
    | none => .crash
    | some nd =>
      if q.head = q.tail then
        .ok { q with heap := hfree q.heap q.tail, head := 0, tail := 0 } nd.object
      else
        .ok { q with heap := setNext (hfree q.heap q.tail) nd.prev 0,
                     tail := nd.prev } nd.object

/-- q_pop_back: early NULL on a destroyed queue, then write_lock_pop, then
the locked body. -/
def q_pop_back (q : QueueR) : Res Nat :=
  if q.destroyed then .ok q 0
  else if popWait q then .blocked
  else q_pop_back_locked q

/-- The loop `for (current = head; current; current = current->next)` of
q_traverse, collecting `current->object` in call order. The fuel argument is a
model artifact; under the invariant `nextAddr` fuel always suffices and every
lookup is defined. -/
def visitFrom (h : Heap) : Nat → Nat → List Nat
  | 0, _ => []
  | fuel + 1, cur =>
    if cur = 0 then []
    else
      match h cur with
      | none => []
      | some nd => nd.object :: visitFrom h fuel nd.next

/-- read_lock after its wait has returned: `queue->readers++`. -/
def read_lock_locked (q : QueueR) : QueueR := { q with readers := q.readers + 1 }

/-- read_unlock: `queue->readers--` (the broadcast has no state content). -/
def read_unlock (q : QueueR) : QueueR := { q with readers := q.readers - 1 }

/-- Body of q_traverse after read_lock's wait has returned: register as a
reader, then, if not destroyed, walk the list invoking the callback on each
payload; finally read_unlock. Returns the result code and the payloads passed
to the callback, in order. -/
def q_traverse_locked (q : QueueR) : QueueR × Nat × List Nat :=
  let q1 := read_lock_locked q
  if q1.destroyed then (read_unlock q1, EXIT_FAILURE, [])
  else (read_unlock q1, EXIT_SUCCESS, visitFrom q1.heap q1.nextAddr q1.head)

/-- q_traverse: early failure on a destroyed queue (the NULL queue/callback
checks are not modelled; the callback is assumed non-NULL), then read_lock,
then the locked body. -/
def q_traverse (q : QueueR) : Res (Nat × List Nat) :=
  if q.destroyed then .ok q (EXIT_FAILURE, [])
  else if readWait q then .blocked
  else
    match q_traverse_locked q with
    | (q1, r, vs) => .ok q1 (r, vs)

/-- The free loop of q_deinit: `next = current->next; free(current)` from head
until NULL. Fuel as in `visitFrom`. -/
def freeAll (h : Heap) : Nat → Nat → Heap
  | 0, _ => h
  | fuel + 1, cur =>
    if cur = 0 then h
    else
      match h cur with
      | none => h
      | some nd => freeAll (hfree h cur) fuel nd.next

/-- Body of q_deinit after write_lock_push has returned: if not destroyed,
free every node, clear head and tail, set destroyed. -/
def q_deinit_locked (q : QueueR) : QueueR :=
  if q.destroyed then q
  else { q with heap := freeAll q.heap q.nextAddr q.head,
                head := 0, tail := 0, destroyed := true }

/-- q_deinit: early return on a destroyed queue, then write_lock_push, then
the locked body. -/
def q_deinit (q : QueueR) : Res Unit :=
  if q.destroyed then .ok q ()
  else if pushWait q then .blocked
  else .ok (q_deinit_locked q) ()

/-!
The structural invariant: the doubly-linked segment predicate.

`dseg h pa cur tl nx addrs` states that, in heap `h`, the addresses `addrs`
form a consecutive doubly-linked chain whose first node is `cur` with
`prev = pa`, whose last node is `tl` with `next = nx`; for the empty chain
`cur = nx` and `tl = pa`. The whole list of a queue is
`dseg h 0 head tail 0 addrs`.
-/

def dseg (h : Heap) : Nat → Nat → Nat → Nat → List Nat → Prop
  | pa, cur, tl, nx, [] => cur = nx ∧ tl = pa
  | pa, cur, tl, nx, a :: rest =>
    cur = a ∧ a ≠ 0 ∧ ∃ nd, h a = some nd ∧ nd.prev = pa ∧ dseg h a nd.next tl nx rest

/-- The full structural invariant of an initialized queue, with the witness
spine `addrs` explicit: the heap holds exactly the chain from head to tail,
addresses are distinct, bounded by the allocation counter, and every stored
payload is non-NULL. -/
structure InvL (q : QueueR) (addrs : List Nat) : Prop where
  seg : dseg q.heap 0 q.head q.tail 0 addrs
  nodup : addrs.Nodup
  dom : ∀ a, (q.heap a).isSome ↔ a ∈ addrs
  bound : ∀ a ∈ addrs, a ≤ q.nextAddr
  len_le : addrs.length ≤ q.nextAddr
  obj_ne : ∀ a nd, q.heap a = some nd → nd.object ≠ 0

/-- The structural invariant of an initialized queue. -/
def InvQ (q : QueueR) : Prop := ∃ addrs, InvL q addrs

/-- The abstraction of a queue to the list of its payloads, front to back. -/
def absQ (q : QueueR) : List Nat := visitFrom q.heap q.nextAddr q.head

/-- The payload stored at an address (0 for a dangling address, which cannot
occur under `dseg`). -/
def objAt (h : Heap) (a : Nat) : Nat :=
  match h a with
  | some nd => nd.object
  | none => 0

/-- The payloads of a spine, read off the heap. -/
def objsOf (h : Heap) (addrs : List Nat) : List Nat :=
  addrs.map (objAt h)

theorem hupd_self (h : Heap) (a : Nat) (nd : Node) : hupd h a nd a = some nd := by
  simp [hupd]

theorem hupd_other (h : Heap) (a b : Nat) (nd : Node) (hne : b ≠ a) :
    hupd h a nd b = h b := by
  simp [hupd, hne]

theorem hfree_self (h : Heap) (a : Nat) : hfree h a a = none := by
  simp [hfree]

theorem hfree_other (h : Heap) (a b : Nat) (hne : b ≠ a) : hfree h a b = h b := by
  simp [hfree, hne]

/-- dseg only depends on the heap at the addresses of the spine. -/
theorem dseg_frame {h h' : Heap} {pa cur tl nx : Nat} {addrs : List Nat}
    (hs : dseg h pa cur tl nx addrs) (hagree : ∀ a ∈ addrs, h' a = h a) :
    dseg h' pa cur tl nx addrs := by
  induction addrs generalizing pa cur with
  | nil => exact hs
  | cons a rest ih =>
    obtain ⟨hcur, ha0, nd, hnd, hprev, hrest⟩ := hs
    refine ⟨hcur, ha0, nd, ?_, hprev, ?_⟩
    · rw [hagree a (List.mem_cons_self a rest)]; exact hnd
    · exact ih hrest fun x hx => hagree x (List.mem_cons_of_mem a hx)

/-- Splitting a doubly-linked segment at an append. -/
theorem dseg_append {h : Heap} {pa cur tl nx : Nat} (xs ys : List Nat) :
    dseg h pa cur tl nx (xs ++ ys) ↔
    ∃ midPrev mid, dseg h pa cur midPrev mid xs ∧ dseg h midPrev mid tl nx ys := by
  induction xs generalizing pa cur with
  | nil =>
    constructor
    · intro hs
      exact ⟨pa, cur, ⟨rfl, rfl⟩, hs⟩
    · rintro ⟨midPrev, mid, ⟨hcur, hpa⟩, hys⟩
      subst hcur; subst hpa; exact hys
  | cons a rest ih =>
    constructor
    · rintro ⟨hcur, ha0, nd, hnd, hprev, hrest⟩
      obtain ⟨midPrev, mid, h1, h2⟩ := (ih).mp hrest
      exact ⟨midPrev, mid, ⟨hcur, ha0, nd, hnd, hprev, h1⟩, h2⟩
    · rintro ⟨midPrev, mid, ⟨hcur, ha0, nd, hnd, hprev, h1⟩, h2⟩
      exact ⟨hcur, ha0, nd, hnd, hprev, (ih).mpr ⟨midPrev, mid, h1, h2⟩⟩

/-- Every address on a spine has a node in the heap. -/
theorem dseg_mem_isSome {h : Heap} {pa cur tl nx : Nat} {addrs : List Nat}
    (hs : dseg h pa cur tl nx addrs) {a : Nat} (ha : a ∈ addrs) :
    (h a).isSome := by
  induction addrs generalizing pa cur with
  | nil => cases ha
  | cons b rest ih =>
    obtain ⟨hcur, hb0, nd, hnd, hprev, hrest⟩ := hs
    rcases List.mem_cons.mp ha with hab | ha'
    · subst hab; simp [hnd]
    · exact ih hrest ha'

/-- Every address on a spine is non-NULL. -/
theorem dseg_mem_ne_zero {h : Heap} {pa cur tl nx : Nat} {addrs : List Nat}
    (hs : dseg h pa cur tl nx addrs) {a : Nat} (ha : a ∈ addrs) :
    a ≠ 0 := by
  induction addrs generalizing pa cur with
  | nil => cases ha
  | cons b rest ih =>
    obtain ⟨hcur, hb0, nd, hnd, hprev, hrest⟩ := hs
    rcases List.mem_cons.mp ha with hab | ha'
    · subst hab; exact hb0
    · exact ih hrest ha'

/-- A whole-list spine is empty exactly when the head pointer is NULL. -/
theorem dseg_nil_iff {h : Heap} {cur tl : Nat} {addrs : List Nat}
    (hs : dseg h 0 cur tl 0 addrs) : addrs = [] ↔ cur = 0 := by
  cases addrs with
  | nil => obtain ⟨hc, _⟩ := hs; simp [hc]
  | cons a rest =>
    obtain ⟨hcur, ha0, _⟩ := hs
    simp [hcur, ha0]

/-- The tail of a non-empty segment is its last address. -/
theorem dseg_last {h : Heap} {pa cur tl nx : Nat} {addrs : List Nat}
    (hs : dseg h pa cur tl nx addrs) (hne : addrs ≠ []) :
    tl ∈ addrs ∧ ∃ init, addrs = init ++ [tl] := by
  induction addrs generalizing pa cur with
  | nil => exact absurd rfl hne
  | cons a rest ih =>
    obtain ⟨hcur, ha0, nd, hnd, hprev, hrest⟩ := hs
    cases rest with
    | nil =>
      obtain ⟨hnx, htl⟩ := hrest
      subst htl
      exact ⟨List.mem_singleton.mpr rfl, [], rfl⟩
    | cons b rest' =>
      obtain ⟨hmem, init, heq⟩ := ih hrest (by simp)
      exact ⟨List.mem_cons_of_mem a hmem, a :: init, by rw [heq]; rfl⟩

theorem visitFrom_null (h : Heap) (fuel : Nat) : visitFrom h fuel 0 = [] := by
  cases fuel <;> simp [visitFrom]

theorem freeAll_null (h : Heap) (fuel : Nat) : freeAll h fuel 0 = h := by
  cases fuel <;> simp [freeAll]

/-- `objsOf` only depends on the stored payloads at the addresses of the
spine; pointer-field updates elsewhere or at the spine do not change it. -/
theorem objsOf_congr {h h' : Heap} {addrs : List Nat}
    (hagree : ∀ a ∈ addrs, objAt h' a = objAt h a) :
    objsOf h' addrs = objsOf h addrs := by
  induction addrs with
  | nil => rfl
  | cons a rest ih =>
    simp only [objsOf, List.map_cons]
    rw [hagree a (List.mem_cons_self a rest)]
    have := ih fun x hx => hagree x (List.mem_cons_of_mem a hx)
    simp only [objsOf] at this
    rw [this]

/-- The traversal loop visits exactly the payloads of the spine, in order,
for any sufficient fuel. -/
theorem visitFrom_of_dseg {h : Heap} {pa cur tl : Nat} {addrs : List Nat}
    (hs : dseg h pa cur tl 0 addrs) {fuel : Nat} (hf : addrs.length ≤ fuel) :
    visitFrom h fuel cur = objsOf h addrs := by
  induction addrs generalizing pa cur fuel with
  | nil =>
    obtain ⟨hc, _⟩ := hs
    subst hc
    simp [visitFrom_null, objsOf]
  | cons a rest ih =>
    obtain ⟨hcur, ha0, nd, hnd, hprev, hrest⟩ := hs
    subst hcur
    cases fuel with
    | zero => simp at hf
    | succ f =>
      simp only [visitFrom, ha0, if_neg, hnd, if_false]
      rw [ih hrest (Nat.le_of_succ_le_succ hf)]
      simp [objsOf, objAt, hnd]

/-- The deinit free loop removes exactly the spine from the heap, for any
sufficient fuel. -/
theorem freeAll_of_dseg {h : Heap} {pa cur tl : Nat} {addrs : List Nat}
    (hs : dseg h pa cur tl 0 addrs) (hnd : addrs.Nodup) {fuel : Nat}
    (hf : addrs.length ≤ fuel) :
    ∀ x, freeAll h fuel cur x = if x ∈ addrs then none else h x := by
  induction addrs generalizing pa cur fuel h with
  | nil =>
    obtain ⟨hc, _⟩ := hs
    subst hc
    intro x
    simp [freeAll_null]
  | cons a rest ih =>
    obtain ⟨hcur, ha0, nd, hand, hprev, hrest⟩ := hs
    subst hcur
    cases fuel with
    | zero => simp at hf
    | succ f =>
      have hanotin : cur ∉ rest := (List.nodup_cons.mp hnd).1
      have hrest' : dseg (hfree h cur) cur nd.next tl 0 rest :=
        dseg_frame hrest fun x hx =>
          hfree_other h cur x fun hxa => hanotin (hxa ▸ hx)
      have hrec := ih hrest' (List.nodup_cons.mp hnd).2 (Nat.le_of_succ_le_succ hf)
      intro x
      simp only [freeAll, ha0, if_neg, hand, if_false]
      rw [hrec x]
      by_cases hxr : x ∈ rest
      · simp [hxr]
      · by_cases hxa : x = cur
        · subst hxa
          simp [hxr, hfree_self]
        · simp [hxr, hxa, hfree_other h cur x hxa]

/-- Under the invariant, the abstraction reads off the payloads of the spine. -/
theorem absQ_eq_objsOf {q : QueueR} {addrs : List Nat} (hq : InvL q addrs) :
    absQ q = objsOf q.heap addrs :=
  visitFrom_of_dseg hq.seg hq.len_le

/-- Under the invariant, the head pointer is NULL exactly when the queue is empty. -/
theorem InvL_head_nil {q : QueueR} {addrs : List Nat} (hq : InvL q addrs) :
    addrs = [] ↔ q.head = 0 :=
  dseg_nil_iff hq.seg

/-- A whole-list spine is empty exactly when the tail pointer is NULL. -/
theorem dseg_tail_nil_iff {h : Heap} {cur tl : Nat} {addrs : List Nat}
    (hs : dseg h 0 cur tl 0 addrs) : addrs = [] ↔ tl = 0 := by
  cases addrs with
  | nil => obtain ⟨_, ht⟩ := hs; simp [ht]
  | cons a rest =>
    simp only [List.cons_ne_nil, false_iff]
    intro ht0
    have := dseg_mem_ne_zero hs (dseg_last hs (by simp)).1
    exact this ht0

theorem objAt_of_some {h : Heap} {a : Nat} {nd : Node} (ha : h a = some nd) :
    objAt h a = nd.object := by
  simp [objAt, ha]

theorem InvL.heap_none {q : QueueR} {addrs : List Nat} (hq : InvL q addrs)
    {b : Nat} (hb : b ∉ addrs) : q.heap b = none := by
  have := (hq.dom b).not.mpr hb
  exact Option.not_isSome_iff_eq_none.mp this

theorem InvL.fresh {q : QueueR} {addrs : List Nat} (hq : InvL q addrs)
    {b : Nat} (hb : b ∈ addrs) : b ≠ q.nextAddr + 1 :=
  Nat.ne_of_lt (Nat.lt_succ_of_le (hq.bound b hb))

theorem InvL.fresh_notin {q : QueueR} {addrs : List Nat} (hq : InvL q addrs) :
    q.nextAddr + 1 ∉ addrs := fun hmem => (hq.fresh hmem) rfl

/-- Specification of q_push_front on a live quiescent queue with a non-NULL
payload and a successful allocation: it succeeds and prepends the payload. -/
theorem q_push_front_spec {q : QueueR} {addrs : List Nat} {x : Nat}
    (hq : InvL q addrs) (hdes : q.destroyed = false) (hr : q.readers = 0)
    (hx : x ≠ 0) :
    ∃ q4, q_push_front q x true = .ok q4 EXIT_SUCCESS ∧
      InvL q4 ((q.nextAddr + 1) :: addrs) ∧ absQ q4 = x :: absQ q ∧
      q4.destroyed = false ∧ q4.readers = 0 := by
  by_cases hh : q.head = 0
  · -- empty queue: create_first_node builds the sole node
    have haddrs : addrs = [] := (InvL_head_nil hq).mpr hh
    subst haddrs
    have htail : q.tail = 0 := hq.seg.2
    have hnone : ∀ b, q.heap b = none := fun b => hq.heap_none (by simp)
    have hq4 : InvL
        { q with heap := hupd q.heap (q.nextAddr + 1) ⟨x, 0, 0⟩,
                 nextAddr := q.nextAddr + 1, head := q.nextAddr + 1,
                 tail := q.nextAddr + 1 }
        [q.nextAddr + 1] := by
      constructor <;> dsimp only
      · exact ⟨rfl, Nat.succ_ne_zero _, ⟨x, 0, 0⟩, hupd_self _ _ _, rfl, rfl, rfl⟩
      · simp
      · intro b
        by_cases hb : b = q.nextAddr + 1
        · subst hb; simp [hupd_self]
        · simp [hupd_other _ _ _ _ hb, hnone b, hb]
      · intro b hb
        simp at hb
        simp [hb]
      · simp
      · intro b nd hb
        by_cases hba : b = q.nextAddr + 1
        · subst hba
          rw [hupd_self] at hb
          cases hb
          exact hx
        · rw [hupd_other _ _ _ _ hba, hnone b] at hb
          cases hb
    refine ⟨_, ?_, hq4, ?_, hdes, hr⟩
    · simp only [q_push_front, q_push_front_locked, create_first_node, pushWait,
        hx, hdes, hr, hh, htail]
      simp
    · rw [absQ_eq_objsOf hq4, absQ_eq_objsOf hq]
      simp only [objsOf, List.map_cons, List.map_nil]
      rw [objAt_of_some (hupd_self _ _ _)]
  · -- non-empty queue
    obtain ⟨a0, rest, rfl⟩ : ∃ a0 rest, addrs = a0 :: rest := by
      cases addrs with
      | nil => exact absurd ((InvL_head_nil hq).mp rfl) hh
      | cons a0 rest => exact ⟨a0, rest, rfl⟩
    obtain ⟨hcur, ha00, nd, hnd, hprev, hrest⟩ := hq.seg
    have hha : q.head ≠ q.nextAddr + 1 := by
      rw [hcur]; exact hq.fresh (List.mem_cons_self _ _)
    have hndq : q.heap q.head = some nd := by rw [hcur]; exact hnd
    have ha0notin : a0 ∉ rest := (List.nodup_cons.mp hq.nodup).1
    have hh1head : hupd q.heap (q.nextAddr + 1) ⟨x, 0, q.head⟩ q.head = some nd := by
      rw [hupd_other _ _ _ _ hha]; exact hndq
    have hframe : ∀ b ∈ rest,
        hupd (hupd q.heap (q.nextAddr + 1) ⟨x, 0, q.head⟩) q.head
          { nd with prev := q.nextAddr + 1 } b = q.heap b := by
      intro b hb
      have hb1 : b ≠ q.head := by
        rw [hcur]; exact fun hba0 => ha0notin (hba0 ▸ hb)
      have hb2 : b ≠ q.nextAddr + 1 := hq.fresh (List.mem_cons_of_mem _ hb)
      rw [hupd_other _ _ _ _ hb1, hupd_other _ _ _ _ hb2]
    have hq4 : InvL
        { q with heap := hupd (hupd q.heap (q.nextAddr + 1) ⟨x, 0, q.head⟩) q.head
                   { nd with prev := q.nextAddr + 1 },
                 nextAddr := q.nextAddr + 1, head := q.nextAddr + 1 }
        ((q.nextAddr + 1) :: a0 :: rest) := by
      constructor <;> dsimp only
      · refine ⟨rfl, Nat.succ_ne_zero _, ⟨x, 0, q.head⟩, ?_, rfl, ?_⟩
        · rw [hupd_other _ _ _ _ (Ne.symm hha), hupd_self]
        · show dseg _ (q.nextAddr + 1) q.head q.tail 0 (a0 :: rest)
          refine ⟨hcur, ha00, { nd with prev := q.nextAddr + 1 }, ?_, rfl, ?_⟩
          · rw [hcur, hupd_self]
          · show dseg _ a0 nd.next q.tail 0 rest
            refine dseg_frame hrest hframe
      · refine List.nodup_cons.mpr ⟨hq.fresh_notin, hq.nodup⟩
      · intro b
        by_cases hb1 : b = q.head
        · subst hb1
          simp [hupd_self, hcur]
        · by_cases hb2 : b = q.nextAddr + 1
          · subst hb2
            rw [hupd_other _ _ _ _ (Ne.symm hha), hupd_self]
            simp
          · rw [hupd_other _ _ _ _ hb1, hupd_other _ _ _ _ hb2]
            rw [hcur] at hb1
            have := hq.dom b
            simp only [this, List.mem_cons]
            constructor
            · intro hmem; right; exact hmem
            · rintro (h1 | h2)
              · exact absurd h1 hb2
              · exact h2
      · intro b hb
        rcases List.mem_cons.mp hb with h1 | h2
        · subst h1; exact le_refl _
        · exact le_trans (hq.bound b h2) (Nat.le_succ _)
      · simpa using Nat.succ_le_succ hq.len_le
      · intro b m hb
        by_cases hb1 : b = q.head
        · subst hb1
          rw [hupd_self] at hb
          cases hb
          show nd.object ≠ 0
          exact hq.obj_ne _ _ hndq
        · by_cases hb2 : b = q.nextAddr + 1
          · subst hb2
            rw [hupd_other _ _ _ _ (Ne.symm hha), hupd_self] at hb
            cases hb
            exact hx
          · rw [hupd_other _ _ _ _ hb1, hupd_other _ _ _ _ hb2] at hb
            exact hq.obj_ne _ _ hb
    refine ⟨_, ?_, hq4, ?_, hdes, hr⟩
    · simp only [q_push_front, q_push_front_locked, pushWait, setPrev,
        hx, hdes, hr, hh, hh1head]
      simp
    · rw [absQ_eq_objsOf hq4, absQ_eq_objsOf hq]
      show objsOf _ ((q.nextAddr + 1) :: a0 :: rest) = x :: objsOf _ (a0 :: rest)
      simp only [objsOf, List.map_cons, List.cons.injEq]
      refine ⟨?_, ?_, ?_⟩
      · rw [objAt_of_some (by rw [hupd_other _ _ _ _ (Ne.symm hha), hupd_self])]
      · rw [objAt_of_some (by rw [hcur, hupd_self]), objAt_of_some hnd]
      · have := @objsOf_congr q.heap
          (hupd (hupd q.heap (q.nextAddr + 1) ⟨x, 0, q.head⟩) q.head
            { nd with prev := q.nextAddr + 1 }) rest
          fun b hb => by rw [objAt, objAt, hframe b hb]
        simpa [objsOf] using this

/-- Specification of q_push_back on a live quiescent queue with a non-NULL
payload and a successful allocation: it succeeds and appends the payload. -/
theorem q_push_back_spec {q : QueueR} {addrs : List Nat} {x : Nat}
    (hq : InvL q addrs) (hdes : q.destroyed = false) (hr : q.readers = 0)
    (hx : x ≠ 0) :
    ∃ q4, q_push_back q x true = .ok q4 EXIT_SUCCESS ∧
      InvL q4 (addrs ++ [q.nextAddr + 1]) ∧ absQ q4 = absQ q ++ [x] ∧
      q4.destroyed = false ∧ q4.readers = 0 := by
  by_cases ht : q.tail = 0
  · -- empty queue: create_first_node builds the sole node
    have haddrs : addrs = [] := (dseg_tail_nil_iff hq.seg).mpr ht
    subst haddrs
    have hhead : q.head = 0 := hq.seg.1
    have hnone : ∀ b, q.heap b = none := fun b => hq.heap_none (by simp)
    have hq4 : InvL
        { q with heap := hupd q.heap (q.nextAddr + 1) ⟨x, 0, 0⟩,
                 nextAddr := q.nextAddr + 1, head := q.nextAddr + 1,
                 tail := q.nextAddr + 1 }
        [q.nextAddr + 1] := by
      constructor <;> dsimp only
      · exact ⟨rfl, Nat.succ_ne_zero _, ⟨x, 0, 0⟩, hupd_self _ _ _, rfl, rfl, rfl⟩
      · simp
      · intro b
        by_cases hb : b = q.nextAddr + 1
        · subst hb; simp [hupd_self]
        · simp [hupd_other _ _ _ _ hb, hnone b, hb]
      · intro b hb
        simp at hb
        simp [hb]
      · simp
      · intro b nd hb
        by_cases hba : b = q.nextAddr + 1
        · subst hba
          rw [hupd_self] at hb
          cases hb
          exact hx
        · rw [hupd_other _ _ _ _ hba, hnone b] at hb
          cases hb
    refine ⟨_, ?_, hq4, ?_, hdes, hr⟩
    · simp only [q_push_back, q_push_back_locked, create_first_node, pushWait,
        hx, hdes, hr, ht, hhead]
      simp
    · rw [absQ_eq_objsOf hq4, absQ_eq_objsOf hq]
      simp only [objsOf, List.map_cons, List.map_nil, List.nil_append]
      rw [objAt_of_some (hupd_self _ _ _)]
  · -- non-empty queue
    have hne : addrs ≠ [] := fun h0 => ht ((dseg_tail_nil_iff hq.seg).mp h0)
    obtain ⟨htlmem, init, heq⟩ := dseg_last hq.seg hne
    have htlnotin : q.tail ∉ init := by
      have := hq.nodup
      rw [heq] at this
      have h2 := List.disjoint_of_nodup_append this
      intro hmem
      exact h2 hmem (List.mem_singleton.mpr rfl)
    obtain ⟨midPrev, mid, hinit, htl⟩ := (dseg_append init [q.tail]).mp (heq ▸ hq.seg)
    obtain ⟨hmid, ht0, tnd, htnd, htprev, hrest0⟩ := htl
    obtain ⟨htnext, -⟩ := hrest0
    subst hmid
    have hta : q.tail ≠ q.nextAddr + 1 := hq.fresh htlmem
    have hh1tail : hupd q.heap (q.nextAddr + 1) ⟨x, q.tail, 0⟩ q.tail = some tnd := by
      rw [hupd_other _ _ _ _ hta]; exact htnd
    have hframe : ∀ b ∈ init,
        hupd (hupd q.heap (q.nextAddr + 1) ⟨x, q.tail, 0⟩) q.tail
          { tnd with next := q.nextAddr + 1 } b = q.heap b := by
      intro b hb
      have hb1 : b ≠ q.tail := fun hbt => htlnotin (hbt ▸ hb)
      have hb2 : b ≠ q.nextAddr + 1 := hq.fresh (heq ▸ List.mem_append_left _ hb)
      rw [hupd_other _ _ _ _ hb1, hupd_other _ _ _ _ hb2]
    have hq4 : InvL
        { q with heap := hupd (hupd q.heap (q.nextAddr + 1) ⟨x, q.tail, 0⟩) q.tail
                   { tnd with next := q.nextAddr + 1 },
                 nextAddr := q.nextAddr + 1, tail := q.nextAddr + 1 }
        (addrs ++ [q.nextAddr + 1]) := by
      constructor <;> dsimp only
      · rw [heq, List.append_assoc]
        refine (dseg_append init ([q.tail] ++ [q.nextAddr + 1])).mpr
          ⟨midPrev, q.tail, dseg_frame hinit hframe, ?_⟩
        refine ⟨rfl, ht0, { tnd with next := q.nextAddr + 1 }, hupd_self _ _ _,
          htprev, ?_⟩
        show dseg _ q.tail (q.nextAddr + 1) (q.nextAddr + 1) 0 [q.nextAddr + 1]
        refine ⟨rfl, Nat.succ_ne_zero _, ⟨x, q.tail, 0⟩, ?_, rfl, rfl, rfl⟩
        rw [hupd_other _ _ _ _ (Ne.symm hta), hupd_self]
      · rw [List.nodup_append]
        exact ⟨hq.nodup, List.nodup_singleton _,
          fun b hb hb1 => hq.fresh hb (List.mem_singleton.mp hb1)⟩
      · intro b
        by_cases hb1 : b = q.tail
        · subst hb1
          simp [hupd_self, htlmem]
        · by_cases hb2 : b = q.nextAddr + 1
          · subst hb2
            rw [hupd_other _ _ _ _ (Ne.symm hta), hupd_self]
            simp
          · rw [hupd_other _ _ _ _ hb1, hupd_other _ _ _ _ hb2]
            have := hq.dom b
            simp only [this, List.mem_append, List.mem_singleton]
            constructor
            · intro hmem; left; exact hmem
            · rintro (h1 | h2)
              · exact h1
              · exact absurd h2 hb2
      · intro b hb
        rcases List.mem_append.mp hb with h1 | h2
        · exact le_trans (hq.bound b h1) (Nat.le_succ _)
        · rw [List.mem_singleton.mp h2]
      · simpa using Nat.succ_le_succ hq.len_le
      · intro b m hb
        by_cases hb1 : b = q.tail
        · subst hb1
          rw [hupd_self] at hb
          cases hb
          show tnd.object ≠ 0
          exact hq.obj_ne _ _ htnd
        · by_cases hb2 : b = q.nextAddr + 1
          · subst hb2
            rw [hupd_other _ _ _ _ (Ne.symm hta), hupd_self] at hb
            cases hb
            exact hx
          · rw [hupd_other _ _ _ _ hb1, hupd_other _ _ _ _ hb2] at hb
            exact hq.obj_ne _ _ hb
    refine ⟨_, ?_, hq4, ?_, hdes, hr⟩
    · simp only [q_push_back, q_push_back_locked, pushWait, setNext,
        hx, hdes, hr, ht, hh1tail]
      simp
    · rw [absQ_eq_objsOf hq4, absQ_eq_objsOf hq]
      show objsOf _ (addrs ++ [q.nextAddr + 1]) = objsOf _ addrs ++ [x]
      simp only [objsOf, List.map_append, List.map_cons, List.map_nil]
      congr 1
      · refine List.map_congr_left fun b hb => ?_
        by_cases hb1 : b = q.tail
        · subst hb1
          rw [objAt_of_some (hupd_self _ _ _), objAt_of_some htnd]
        · have hb2 : b ≠ q.nextAddr + 1 := hq.fresh hb
          rw [objAt, objAt, hupd_other _ _ _ _ hb1, hupd_other _ _ _ _ hb2]
      · rw [objAt_of_some (by rw [hupd_other _ _ _ _ (Ne.symm hta), hupd_self])]

/-- Specification of q_pop_front on a live quiescent non-empty queue: it
returns the front payload and removes the front node. -/
theorem q_pop_front_spec {q : QueueR} {a0 : Nat} {rest : List Nat}
    (hq : InvL q (a0 :: rest)) (hdes : q.destroyed = false) (hr : q.readers = 0) :
    ∃ q4, q_pop_front q = .ok q4 (objAt q.heap a0) ∧ InvL q4 rest ∧
      absQ q4 = objsOf q.heap rest ∧ q4.destroyed = false ∧ q4.readers = 0 := by
  obtain ⟨hcur, ha00, nd, hnd, hprev, hrest⟩ := hq.seg
  have hndq : q.heap q.head = some nd := by rw [hcur]; exact hnd
  have hh : q.head ≠ 0 := by rw [hcur]; exact ha00
  have ha0notin : a0 ∉ rest := (List.nodup_cons.mp hq.nodup).1
  have hobj : objAt q.heap a0 = nd.object := objAt_of_some hnd
  cases rest with
  | nil =>
    -- sole node: head == tail, both cleared
    obtain ⟨hnext, htl⟩ := hrest
    have hht : q.head = q.tail := by rw [hcur, htl]
    have hq4 : InvL
        { q with heap := hfree q.heap q.head, head := 0, tail := 0 } [] := by
      constructor <;> dsimp only
      · exact ⟨rfl, rfl⟩
      · simp
      · intro b
        by_cases hb : b = q.head
        · subst hb; simp [hfree_self]
        · rw [hfree_other _ _ _ hb]
          rw [hcur] at hb
          simp [hq.dom b, hb]
      · intro b hb
        cases hb
      · exact Nat.zero_le _
      · intro b m hb
        by_cases hb1 : b = q.head
        · subst hb1; rw [hfree_self] at hb; cases hb
        · rw [hfree_other _ _ _ hb1] at hb
          exact hq.obj_ne _ _ hb
    refine ⟨_, ?_, hq4, ?_, hdes, hr⟩
    · rw [hobj]
      have hpw : popWait q = false := by simp [popWait, hh, hr, hdes]
      simp only [q_pop_front, q_pop_front_locked, hdes, hpw, hndq]
      rw [if_pos hht]
      simp
    · rw [absQ_eq_objsOf hq4]
      rfl
  | cons b0 rest2 =>
    have htlmem : q.tail ∈ b0 :: rest2 := (dseg_last hrest (by simp)).1
    obtain ⟨hb0cur, hb00, nd2, hnd2, hnd2prev, hrest2⟩ := hrest
    have hht : q.head ≠ q.tail := by
      rw [hcur]
      exact fun ha => ha0notin (ha ▸ htlmem)
    have hb0a0 : b0 ≠ a0 := fun hb =>
      ha0notin (hb ▸ List.mem_cons_self b0 rest2)
    have hfb0 : hfree q.heap q.head b0 = some nd2 := by
      rw [hcur, hfree_other _ _ _ hb0a0]; exact hnd2
    have hb0notin : b0 ∉ rest2 := (List.nodup_cons.mp (List.nodup_cons.mp hq.nodup).2).1
    have hframe : ∀ b ∈ rest2,
        hupd (hfree q.heap q.head) b0 { nd2 with prev := 0 } b = q.heap b := by
      intro b hb
      have hb1 : b ≠ b0 := fun hbe => hb0notin (hbe ▸ hb)
      have hb2 : b ≠ q.head := by
        rw [hcur]
        exact fun hbe => ha0notin (hbe ▸ List.mem_cons_of_mem b0 hb)
      rw [hupd_other _ _ _ _ hb1, hfree_other _ _ _ hb2]
    have hq4 : InvL
        { q with heap := hupd (hfree q.heap q.head) b0 { nd2 with prev := 0 },
                 head := b0 }
        (b0 :: rest2) := by
      constructor <;> dsimp only
      · refine ⟨rfl, hb00, { nd2 with prev := 0 }, hupd_self _ _ _, rfl, ?_⟩
        show dseg _ b0 nd2.next q.tail 0 rest2
        exact dseg_frame hrest2 hframe
      · exact (List.nodup_cons.mp hq.nodup).2
      · intro b
        by_cases hb1 : b = b0
        · subst hb1; simp [hupd_self]
        · rw [hupd_other _ _ _ _ hb1]
          by_cases hb2 : b = q.head
          · subst hb2
            simp only [hfree_self, hcur]
            simp only [hcur] at hb1
            constructor
            · intro hfa; cases hfa
            · intro hmem
              exact absurd hmem ha0notin
          · rw [hfree_other _ _ _ hb2]
            rw [hcur] at hb2
            rw [hq.dom b]
            simp [hb2]
      · intro b hb
        exact hq.bound b (List.mem_cons_of_mem _ hb)
      · exact le_trans (Nat.le_succ _) hq.len_le
      · intro b m hb
        by_cases hb1 : b = b0
        · subst hb1
          rw [hupd_self] at hb
          cases hb
          show nd2.object ≠ 0
          exact hq.obj_ne _ _ hnd2
        · rw [hupd_other _ _ _ _ hb1] at hb
          by_cases hb2 : b = q.head
          · subst hb2; rw [hfree_self] at hb; cases hb
          · rw [hfree_other _ _ _ hb2] at hb
            exact hq.obj_ne _ _ hb
    refine ⟨_, ?_, hq4, ?_, hdes, hr⟩
    · rw [hobj]
      have hpw : popWait q = false := by simp [popWait, hh, hr, hdes]
      simp only [q_pop_front, q_pop_front_locked, hdes, hpw, hndq]
      rw [if_neg hht]
      simp only [setPrev, hb0cur, hfb0]
      simp
    · rw [absQ_eq_objsOf hq4]
      refine objsOf_congr fun b hb => ?_
      dsimp only
      rcases List.mem_cons.mp hb with h1 | h2
      · subst h1
        rw [objAt_of_some (hupd_self _ _ _), objAt_of_some hnd2]
      · rw [objAt, objAt, hframe b h2]

/-- Specification of q_pop_back on a live quiescent non-empty queue: it
returns the back payload and removes the back node. -/
theorem q_pop_back_spec {q : QueueR} {init : List Nat} {t0 : Nat}
    (hq : InvL q (init ++ [t0])) (hdes : q.destroyed = false) (hr : q.readers = 0) :
    ∃ q4, q_pop_back q = .ok q4 (objAt q.heap t0) ∧ InvL q4 init ∧
      absQ q4 = objsOf q.heap init ∧ q4.destroyed = false ∧ q4.readers = 0 := by
  obtain ⟨midPrev, mid, hinit, htl⟩ := (dseg_append init [t0]).mp hq.seg
  obtain ⟨hmid, ht0, tnd, htnd, htprev, htnext, htt⟩ := htl
  subst hmid
  subst htt
  have hh : q.head ≠ 0 := by
    intro h0
    have := (dseg_nil_iff hq.seg).mpr h0
    simp at this
  have htlnotin : q.tail ∉ init := by
    have h2 := List.disjoint_of_nodup_append hq.nodup
    intro hmem
    exact h2 hmem (List.mem_singleton.mpr rfl)
  have hobj : objAt q.heap q.tail = tnd.object := objAt_of_some htnd
  cases hinite : init with
  | nil =>
    subst hinite
    obtain ⟨hhm, hmp0⟩ := hinit
    have hht : q.head = q.tail := hhm
    have hq4 : InvL
        { q with heap := hfree q.heap q.tail, head := 0, tail := 0 } [] := by
      constructor <;> dsimp only
      · exact ⟨rfl, rfl⟩
      · simp
      · intro b
        by_cases hb : b = q.tail
        · subst hb; simp [hfree_self]
        · rw [hfree_other _ _ _ hb]
          have := hq.dom b
          simp only [this]
          simp [hb]
      · intro b hb
        cases hb
      · exact Nat.zero_le _
      · intro b m hb
        by_cases hb1 : b = q.tail
        · subst hb1; rw [hfree_self] at hb; cases hb
        · rw [hfree_other _ _ _ hb1] at hb
          exact hq.obj_ne _ _ hb
    refine ⟨_, ?_, hq4, ?_, hdes, hr⟩
    · rw [hobj]
      have hpw : popWait q = false := by simp [popWait, hh, hr, hdes]
      simp only [q_pop_back, q_pop_back_locked, hdes, hpw, htnd]
      rw [if_pos hht]
      simp
    · rw [absQ_eq_objsOf hq4]
      rfl
  | cons i0 irest =>
    rw [← hinite]
    have hinitne : init ≠ [] := by rw [hinite]; simp
    have hhead : q.head = i0 := by rw [hinite] at hinit; exact hinit.1
    have hheadmem : q.head ∈ init := by rw [hinite, hhead]; simp
    have hht : q.head ≠ q.tail := fun he => htlnotin (he ▸ hheadmem)
    obtain ⟨hmpmem, init2, heqi⟩ := dseg_last hinit hinitne
    have hmpt : midPrev ≠ q.tail := fun he => htlnotin (he ▸ hmpmem)
    obtain ⟨mp2, m2, hinit2, hmidseg⟩ := (dseg_append init2 [midPrev]).mp (heqi ▸ hinit)
    obtain ⟨hm2, hmp0, pnd, hpnd, hpprev, hpnext, -⟩ := hmidseg
    replace hm2 := hm2.symm
    subst hm2
    have hfmp2 : hfree q.heap q.tail midPrev = some pnd := by
      rw [hfree_other _ _ _ hmpt]; exact hpnd
    have hmpnotin2 : midPrev ∉ init2 := by
      have : init.Nodup := (List.nodup_append.mp hq.nodup).1
      rw [heqi] at this
      have h2 := List.disjoint_of_nodup_append this
      intro hmem
      exact h2 hmem (List.mem_singleton.mpr rfl)
    have hframe : ∀ b ∈ init2,
        hupd (hfree q.heap q.tail) midPrev { pnd with next := 0 } b = q.heap b := by
      intro b hb
      have hbmem : b ∈ init := by rw [heqi]; exact List.mem_append_left _ hb
      have hb1 : b ≠ midPrev := fun hbe => hmpnotin2 (hbe ▸ hb)
      have hb2 : b ≠ q.tail := fun hbe => htlnotin (hbe ▸ hbmem)
      rw [hupd_other _ _ _ _ hb1, hfree_other _ _ _ hb2]
    have hinitnodup : init.Nodup := (List.nodup_append.mp hq.nodup).1
    have hq4 : InvL
        { q with heap := hupd (hfree q.heap q.tail) midPrev { pnd with next := 0 },
                 tail := midPrev }
        init := by
      constructor <;> dsimp only
      · rw [heqi]
        refine (dseg_append init2 [midPrev]).mpr
          ⟨mp2, midPrev, dseg_frame hinit2 hframe, ?_⟩
        exact ⟨rfl, hmp0, { pnd with next := 0 }, hupd_self _ _ _, hpprev, rfl, rfl⟩
      · exact hinitnodup
      · intro b
        by_cases hb1 : b = midPrev
        · subst hb1; simp [hupd_self, hmpmem]
        · rw [hupd_other _ _ _ _ hb1]
          by_cases hb2 : b = q.tail
          · subst hb2
            simp only [hfree_self]
            simp [htlnotin]
          · rw [hfree_other _ _ _ hb2]
            have := hq.dom b
            simp only [this, List.mem_append, List.mem_singleton]
            constructor
            · rintro (h1 | h2)
              · exact h1
              · exact absurd h2 hb2
            · intro hmem; left; exact hmem
      · intro b hb
        exact hq.bound b (List.mem_append_left _ hb)
      · refine le_trans ?_ hq.len_le
        simp
      · intro b m hb
        by_cases hb1 : b = midPrev
        · subst hb1
          rw [hupd_self] at hb
          cases hb
          show pnd.object ≠ 0
          exact hq.obj_ne _ _ hpnd
        · rw [hupd_other _ _ _ _ hb1] at hb
          by_cases hb2 : b = q.tail
          · subst hb2; rw [hfree_self] at hb; cases hb
          · rw [hfree_other _ _ _ hb2] at hb
            exact hq.obj_ne _ _ hb
    refine ⟨_, ?_, hq4, ?_, hdes, hr⟩
    · rw [hobj]
      have hpw : popWait q = false := by simp [popWait, hh, hr, hdes]
      simp only [q_pop_back, q_pop_back_locked, hdes, hpw, htnd]
      rw [if_neg hht]
      simp only [setNext, htprev, hfmp2]
      simp
    · rw [absQ_eq_objsOf hq4]
      refine objsOf_congr fun b hb => ?_
      dsimp only
      by_cases hb1 : b = midPrev
      · subst hb1
        rw [objAt_of_some (hupd_self _ _ _), objAt_of_some hpnd]
      · have hb2 : b ≠ q.tail := fun hbe => htlnotin (hbe ▸ hb)
        rw [objAt, objAt, hupd_other _ _ _ _ hb1, hfree_other _ _ _ hb2]

/-- Rebuilding a queue with a provably equal destroyed flag is the identity. -/
theorem mk_destroyed_eq (q : QueueR) {b : Bool} (hb : q.destroyed = b) :
    QueueR.mk q.heap q.nextAddr q.head q.tail q.readers b = q := by
  rw [← hb]

/-- Specification of q_traverse on a live non-empty queue: it returns success,
passes exactly the payloads of the list to the callback in front-to-back
order, and leaves the whole queue state unchanged. -/
theorem q_traverse_spec {q : QueueR} {addrs : List Nat}
    (hq : InvL q addrs) (hdes : q.destroyed = false) (hh : q.head ≠ 0) :
    q_traverse q = .ok q (EXIT_SUCCESS, objsOf q.heap addrs) := by
  have hrw : readWait q = false := by simp [readWait, hh, hdes]
  have hv : visitFrom q.heap q.nextAddr q.head = objsOf q.heap addrs :=
    visitFrom_of_dseg hq.seg hq.len_le
  simp only [q_traverse, q_traverse_locked, read_lock_locked, read_unlock,
    hdes, hrw, hv]
  simp
  exact mk_destroyed_eq q hdes

/-- q_traverse on an empty, live queue waits in read_lock (forever, absent
other threads): the wait condition requires a non-empty list or destruction. -/
theorem q_traverse_blocks {q : QueueR} (hh : q.head = 0)
    (hdes : q.destroyed = false) : q_traverse q = .blocked := by
  simp [q_traverse, readWait, hh, hdes]

/-- Specification of q_deinit on a live quiescent queue: it frees every node,
clears head and tail, and sets the destroyed flag. -/
theorem q_deinit_spec {q : QueueR} {addrs : List Nat}
    (hq : InvL q addrs) (hdes : q.destroyed = false) (hr : q.readers = 0) :
    ∃ q4, q_deinit q = .ok q4 () ∧ (∀ x, q4.heap x = none) ∧
      q4.head = 0 ∧ q4.tail = 0 ∧ q4.destroyed = true ∧
      q4.readers = 0 ∧ InvL q4 [] := by
  have hpw : pushWait q = false := by simp [pushWait, hr, hdes]
  have hfa : ∀ x, freeAll q.heap q.nextAddr q.head x = none := by
    intro x
    rw [freeAll_of_dseg hq.seg hq.nodup hq.len_le x]
    by_cases hx : x ∈ addrs
    · simp [hx]
    · simp [hx, hq.heap_none hx]
  have hlocked : q_deinit_locked q =
      { q with heap := freeAll q.heap q.nextAddr q.head,
               head := 0, tail := 0, destroyed := true } := by
    simp [q_deinit_locked, hdes]
  refine ⟨q_deinit_locked q, ?_, ?_, ?_, ?_, ?_, ?_, ?_⟩
  · simp [q_deinit, hdes, hpw]
  · intro x
    rw [hlocked]
    exact hfa x
  · rw [hlocked]
  · rw [hlocked]
  · rw [hlocked]
  · rw [hlocked]; exact hr
  · rw [hlocked]
    constructor <;> dsimp only
    · exact ⟨rfl, rfl⟩
    · simp
    · intro b
      simp [hfa b]
    · intro b hb
      cases hb
    · exact Nat.zero_le _
    · intro b m hb
      rw [hfa b] at hb
      cases hb

/-- On a queue whose destroyed flag is set, every public operation and every
post-wait body returns its failure value (EXIT_FAILURE for pushes and
traverse, NULL for pops) and leaves the state exactly as it was; traverse
passes nothing to the callback. -/
theorem ops_on_destroyed (q : QueueR) (hdes : q.destroyed = true)
    (x : Nat) (allocOk : Bool) :
    q_push_front q x allocOk = .ok q EXIT_FAILURE ∧
    q_push_back q x allocOk = .ok q EXIT_FAILURE ∧
    q_pop_front q = .ok q 0 ∧
    q_pop_back q = .ok q 0 ∧
    q_traverse q = .ok q (EXIT_FAILURE, []) ∧
    q_deinit q = .ok q () ∧
    q_push_front_locked q x allocOk = .ok q EXIT_FAILURE ∧
    q_push_back_locked q x allocOk = .ok q EXIT_FAILURE ∧
    q_pop_front_locked q = .ok q 0 ∧
    q_pop_back_locked q = .ok q 0 ∧
    q_traverse_locked q = (q, EXIT_FAILURE, []) ∧
    q_deinit_locked q = q := by
  refine ⟨?_, ?_, ?_, ?_, ?_, ?_, ?_, ?_, ?_, ?_, ?_, ?_⟩ <;>
    simp [q_push_front, q_push_back, q_pop_front, q_pop_back, q_traverse,
      q_deinit, q_push_front_locked, q_push_back_locked, q_pop_front_locked,
      q_pop_back_locked, q_traverse_locked, q_deinit_locked,
      read_lock_locked, read_unlock, hdes] <;>
    exact mk_destroyed_eq q hdes

/-- q_push_front with a failing allocation on a non-empty live quiescent
queue: the `if (new_node)` check reports failure and nothing is mutated. -/
theorem q_push_front_allocFail {q : QueueR} {x : Nat} (hdes : q.destroyed = false)
    (hr : q.readers = 0) (hx : x ≠ 0) (hh : q.head ≠ 0) :
    q_push_front q x false = .ok q EXIT_FAILURE := by
  simp [q_push_front, q_push_front_locked, pushWait, hdes, hr, hx, hh]

/-- q_push_back with a failing allocation on a non-empty live quiescent
queue: the `if (new_node)` check reports failure and nothing is mutated. -/
theorem q_push_back_allocFail {q : QueueR} {x : Nat} (hdes : q.destroyed = false)
    (hr : q.readers = 0) (hx : x ≠ 0) (ht : q.tail ≠ 0) :
    q_push_back q x false = .ok q EXIT_FAILURE := by
  simp [q_push_back, q_push_back_locked, pushWait, hdes, hr, hx, ht]

/-- q_push_front with a failing allocation on an EMPTY live quiescent queue:
create_first_node does not check the result of malloc and dereferences NULL. -/
theorem q_push_front_allocFail_empty {q : QueueR} {x : Nat}
    (hdes : q.destroyed = false) (hr : q.readers = 0) (hx : x ≠ 0)
    (hh : q.head = 0) (ht : q.tail = 0) :
    q_push_front q x false = .crash := by
  simp [q_push_front, q_push_front_locked, create_first_node, pushWait,
    hdes, hr, hx, hh, ht]

/-- q_push_back with a failing allocation on an EMPTY live quiescent queue:
create_first_node does not check the result of malloc and dereferences NULL. -/
theorem q_push_back_allocFail_empty {q : QueueR} {x : Nat}
    (hdes : q.destroyed = false) (hr : q.readers = 0) (hx : x ≠ 0)
    (hh : q.head = 0) (ht : q.tail = 0) :
    q_push_back q x false = .crash := by
  simp [q_push_back, q_push_back_locked, create_first_node, pushWait,
    hdes, hr, hx, hh, ht]

/-- The public mutating interface of the queue, as data: one constructor per
operation other than q_init (push operations carry the payload and whether
malloc succeeds). -/
inductive QOp where
  | pushF (x : Nat) (allocOk : Bool)
  | pushB (x : Nat) (allocOk : Bool)
  | popF
  | popB
  | trav
  | deinit
deriving DecidableEq, Repr

/-- One public operation, as a state transformer; `none` when the operation
does not return (blocks forever or crashes). -/
def qstep : QOp → QueueR → Option QueueR
  | .pushF x allocOk, q =>
    match q_push_front q x allocOk with
    | .ok q2 _ => some q2
    | _ => none
  | .pushB x allocOk, q =>
    match q_push_back q x allocOk with
    | .ok q2 _ => some q2
    | _ => none
  | .popF, q =>
    match q_pop_front q with
    | .ok q2 _ => some q2
    | _ => none
  | .popB, q =>
    match q_pop_back q with
    | .ok q2 _ => some q2
    | _ => none
  | .trav, q =>
    match q_traverse q with
    | .ok q2 _ => some q2
    | _ => none
  | .deinit, q =>
    match q_deinit q with
    | .ok q2 _ => some q2
    | _ => none

/-- Run a sequence of public operations. -/
def runQ : List QOp → QueueR → Option QueueR
  | [], q => some q
  | op :: ops, q =>
    match qstep op q with
    | none => none
    | some q2 => runQ ops q2

/-- On a destroyed queue every public operation returns immediately with the
state untouched. -/
theorem qstep_destroyed (op : QOp) (q : QueueR) (hdes : q.destroyed = true) :
    qstep op q = some q := by
  cases op with
  | pushF x allocOk =>
    have h := (ops_on_destroyed q hdes x allocOk).1
    simp [qstep, h]
  | pushB x allocOk =>
    have h := (ops_on_destroyed q hdes x allocOk).2.1
    simp [qstep, h]
  | popF =>
    have h := (ops_on_destroyed q hdes 0 true).2.2.1
    simp [qstep, h]
  | popB =>
    have h := (ops_on_destroyed q hdes 0 true).2.2.2.1
    simp [qstep, h]
  | trav =>
    have h := (ops_on_destroyed q hdes 0 true).2.2.2.2.1
    simp [qstep, h]
  | deinit =>
    have h := (ops_on_destroyed q hdes 0 true).2.2.2.2.2.1
    simp [qstep, h]

/-- Running any sequence of public operations from a destroyed queue leaves
the state untouched; in particular the destroyed flag never reverts. -/
theorem runQ_destroyed (ops : List QOp) (q : QueueR) (hdes : q.destroyed = true)
    {q2 : QueueR} (hrun : runQ ops q = some q2) : q2 = q := by
  induction ops with
  | nil =>
    simp [runQ] at hrun
    exact hrun.symm
  | cons op ops ih =>
    rw [runQ, qstep_destroyed op q hdes] at hrun
    exact ih hrun

/-- A non-empty spine splits off its last element. -/
theorem exists_snoc_of_ne_nil {addrs : List Nat} (h : addrs ≠ []) :
    ∃ init t0, addrs = init ++ [t0] := by
  induction addrs with
  | nil => exact absurd rfl h
  | cons a rest ih =>
    cases rest with
    | nil => exact ⟨[], a, rfl⟩
    | cons b rest2 =>
      obtain ⟨init, t0, heq⟩ := ih (by simp)
      exact ⟨a :: init, t0, by rw [heq]; rfl⟩

/-- Every public operation that returns preserves the structural invariant. -/
theorem qstep_inv {op : QOp} {q q2 : QueueR} (hq : InvQ q)
    (hstep : qstep op q = some q2) : InvQ q2 := by
  obtain ⟨addrs, hqL⟩ := hq
  by_cases hdes : q.destroyed = true
  · rw [qstep_destroyed op q hdes] at hstep
    cases hstep
    exact ⟨addrs, hqL⟩
  · rw [Bool.not_eq_true] at hdes
    cases op with
    | pushF x allocOk =>
      by_cases hx : x = 0
      · have : q_push_front q x allocOk = .ok q EXIT_FAILURE := by
          simp [q_push_front, hx]
        rw [qstep, this] at hstep
        cases hstep
        exact ⟨addrs, hqL⟩
      · by_cases hr : q.readers = 0
        · cases allocOk with
          | true =>
            obtain ⟨q4, heq, hq4, -, -, -⟩ := q_push_front_spec hqL hdes hr hx
            rw [qstep, heq] at hstep
            cases hstep
            exact ⟨_, hq4⟩
          | false =>
            by_cases hh : q.head = 0
            · have ht : q.tail = 0 :=
                (dseg_tail_nil_iff hqL.seg).mp ((InvL_head_nil hqL).mpr hh)
              rw [qstep, q_push_front_allocFail_empty hdes hr hx hh ht] at hstep
              cases hstep
            · rw [qstep, q_push_front_allocFail hdes hr hx hh] at hstep
              cases hstep
              exact ⟨addrs, hqL⟩
        · have : pushWait q = true := by simp [pushWait, hr, hdes]
          have : q_push_front q x allocOk = .blocked := by
            simp [q_push_front, hx, hdes, this]
          rw [qstep, this] at hstep
          cases hstep
    | pushB x allocOk =>
      by_cases hx : x = 0
      · have : q_push_back q x allocOk = .ok q EXIT_FAILURE := by
          simp [q_push_back, hx]
        rw [qstep, this] at hstep
        cases hstep
        exact ⟨addrs, hqL⟩
      · by_cases hr : q.readers = 0
        · cases allocOk with
          | true =>
            obtain ⟨q4, heq, hq4, -, -, -⟩ := q_push_back_spec hqL hdes hr hx
            rw [qstep, heq] at hstep
            cases hstep
            exact ⟨_, hq4⟩
          | false =>
            by_cases ht : q.tail = 0
            · have hh : q.head = 0 :=
                (InvL_head_nil hqL).mp ((dseg_tail_nil_iff hqL.seg).mpr ht)
              rw [qstep, q_push_back_allocFail_empty hdes hr hx hh ht] at hstep
              cases hstep
            · rw [qstep, q_push_back_allocFail hdes hr hx ht] at hstep
              cases hstep
              exact ⟨addrs, hqL⟩
        · have hw : pushWait q = true := by simp [pushWait, hr, hdes]
          have : q_push_back q x allocOk = .blocked := by
            simp [q_push_back, hx, hdes, hw]
          rw [qstep, this] at hstep
          cases hstep
    | popF =>
      by_cases hr : q.readers = 0
      · by_cases hh : q.head = 0
        · have hw : popWait q = true := by simp [popWait, hh, hdes]
          have : q_pop_front q = .blocked := by simp [q_pop_front, hdes, hw]
          rw [qstep, this] at hstep
          cases hstep
        · obtain ⟨a0, rest, rfl⟩ : ∃ a0 rest, addrs = a0 :: rest := by
            cases addrs with
            | nil => exact absurd ((InvL_head_nil hqL).mp rfl) hh
            | cons a0 rest => exact ⟨a0, rest, rfl⟩
          obtain ⟨q4, heq, hq4, -, -, -⟩ := q_pop_front_spec hqL hdes hr
          rw [qstep, heq] at hstep
          cases hstep
          exact ⟨_, hq4⟩
      · have hw : popWait q = true := by simp [popWait, hr, hdes]
        have : q_pop_front q = .blocked := by simp [q_pop_front, hdes, hw]
        rw [qstep, this] at hstep
        cases hstep
    | popB =>
      by_cases hr : q.readers = 0
      · by_cases hh : q.head = 0
        · have hw : popWait q = true := by simp [popWait, hh, hdes]
          have : q_pop_back q = .blocked := by simp [q_pop_back, hdes, hw]
          rw [qstep, this] at hstep
          cases hstep
        · have hne : addrs ≠ [] := fun h0 => hh ((InvL_head_nil hqL).mp h0)
          obtain ⟨init, t0, rfl⟩ := exists_snoc_of_ne_nil hne
          obtain ⟨q4, heq, hq4, -, -, -⟩ := q_pop_back_spec hqL hdes hr
          rw [qstep, heq] at hstep
          cases hstep
          exact ⟨_, hq4⟩
      · have hw : popWait q = true := by simp [popWait, hr, hdes]
        have : q_pop_back q = .blocked := by simp [q_pop_back, hdes, hw]
        rw [qstep, this] at hstep
        cases hstep
    | trav =>
      by_cases hh : q.head = 0
      · rw [qstep, q_traverse_blocks hh hdes] at hstep
        cases hstep
      · rw [qstep, q_traverse_spec hqL hdes hh] at hstep
        cases hstep
        exact ⟨addrs, hqL⟩
    | deinit =>
      by_cases hr : q.readers = 0
      · obtain ⟨q4, heq, -, -, -, -, -, hq4⟩ := q_deinit_spec hqL hdes hr
        rw [qstep, heq] at hstep
        cases hstep
        exact ⟨[], hq4⟩
      · have hw : pushWait q = true := by simp [pushWait, hr, hdes]
        have : q_deinit q = .blocked := by simp [q_deinit, hdes, hw]
        rw [qstep, this] at hstep
        cases hstep

/-- Running any sequence of public operations preserves the structural
invariant. -/
theorem runQ_inv {ops : List QOp} {q q2 : QueueR} (hq : InvQ q)
    (hrun : runQ ops q = some q2) : InvQ q2 := by
  induction ops generalizing q with
  | nil =>
    simp [runQ] at hrun
    exact hrun ▸ hq
  | cons op ops ih =>
    rw [runQ] at hrun
    cases hstep : qstep op q with
    | none => rw [hstep] at hrun; cases hrun
    | some q1 =>
      rw [hstep] at hrun
      exact ih (qstep_inv hq hstep) hrun

/-- q_init on a queue with no allocated nodes establishes the structural
invariant (the C code assumes the given queue is empty). -/
theorem q_init_inv (q : QueueR) (hnone : ∀ a, q.heap a = none) :
    InvQ (q_init q).1 := by
  refine ⟨[], ?_⟩
  constructor <;> dsimp only [q_init]
  · exact ⟨rfl, rfl⟩
  · simp
  · intro b; simp [hnone b]
  · intro b hb; cases hb
  · exact Nat.zero_le _
  · intro b m hb; rw [hnone b] at hb; cases hb

/-- The four deque operations of a single-threaded functional test, with
allocation always succeeding. -/
inductive DOp where
  | pushF (x : Nat)
  | pushB (x : Nat)
  | popF
  | popB
deriving DecidableEq, Repr

/-- One deque operation on the real queue; the returned Nat is the C return
value (push status, or the popped payload). `none` when it blocks or crashes. -/
def stepC : DOp → QueueR → Option (QueueR × Nat)
  | .pushF x, q =>
    match q_push_front q x true with
    | .ok q2 r => some (q2, r)
    | _ => none
  | .pushB x, q =>
    match q_push_back q x true with
    | .ok q2 r => some (q2, r)
    | _ => none
  | .popF, q =>
    match q_pop_front q with
    | .ok q2 r => some (q2, r)
    | _ => none
  | .popB, q =>
    match q_pop_back q with
    | .ok q2 r => some (q2, r)
    | _ => none

/-- Run a sequence of deque operations on the real queue, collecting the
return values. -/
def runC : List DOp → QueueR → Option (QueueR × List Nat)
  | [], q => some (q, [])
  | op :: ops, q =>
    match stepC op q with
    | none => none
    | some (q2, r) =>
      match runC ops q2 with
      | none => none
      | some (q3, rs) => some (q3, r :: rs)

/-- One deque operation on the reference double-ended queue (a Lean list,
front at the head): pushes report EXIT_SUCCESS, pops report the removed
element; a pop of the empty deque is undefined (the real queue blocks). -/
def stepA : DOp → List Nat → Option (List Nat × Nat)
  | .pushF x, l => some (x :: l, EXIT_SUCCESS)
  | .pushB x, l => some (l ++ [x], EXIT_SUCCESS)
  | .popF, l =>
    match l with
    | [] => none
    | v :: t => some (t, v)
  | .popB, l =>
    match l.getLast? with
    | none => none
    | some v => some (l.dropLast, v)

/-- Run a sequence of deque operations on the reference deque. -/
def runA : List DOp → List Nat → Option (List Nat × List Nat)
  | [], l => some (l, [])
  | op :: ops, l =>
    match stepA op l with
    | none => none
    | some (l2, r) =>
      match runA ops l2 with
      | none => none
      | some (l3, rs) => some (l3, r :: rs)

/-- All pushed payloads of an operation sequence are non-NULL. -/
def okOps (ops : List DOp) : Prop :=
  ∀ op ∈ ops, match op with
    | DOp.pushF x => x ≠ 0
    | DOp.pushB x => x ≠ 0
    | _ => True


/-- Simulation: a sequence of deque operations on a live quiescent queue
either blocks in both the real queue and the reference deque, or returns in
both with identical outputs and abstraction-related final states. -/
theorem runC_runA {ops : List DOp} {q : QueueR} {addrs : List Nat}
    (hq : InvL q addrs) (hdes : q.destroyed = false) (hr : q.readers = 0)
    (hok : okOps ops) :
    (runC ops q = none ∧ runA ops (absQ q) = none) ∨
    (∃ q2 l2 out, runC ops q = some (q2, out) ∧
      runA ops (absQ q) = some (l2, out) ∧ InvQ q2 ∧ absQ q2 = l2 ∧
      q2.destroyed = false ∧ q2.readers = 0) := by
  induction ops generalizing q addrs with
  | nil =>
    right
    exact ⟨q, absQ q, [], rfl, rfl, ⟨addrs, hq⟩, rfl, hdes, hr⟩
  | cons op ops ih =>
    have hokop := hok op (List.mem_cons_self _ _)
    have hokrest : okOps ops := fun o ho => hok o (List.mem_cons_of_mem _ ho)
    cases op with
    | pushF x =>
      have hx : x ≠ 0 := hokop
      obtain ⟨q4, heq, hq4, habs, hdes4, hr4⟩ := q_push_front_spec hq hdes hr hx
      have hstep : stepC (DOp.pushF x) q = some (q4, EXIT_SUCCESS) := by
        simp [stepC, heq]
      have hstepA : stepA (DOp.pushF x) (absQ q) = some (x :: absQ q, EXIT_SUCCESS) := rfl
      rcases ih hq4 hdes4 hr4 hokrest with ⟨hc, ha⟩ | ⟨q2, l2, out, hc, ha, hi2, habs2, hd2, hr2⟩
      · have ha2 : runA ops (x :: absQ q) = none := habs ▸ ha
        left
        exact ⟨by simp [runC, hstep, hc], by simp [runA, hstepA, ha2]⟩
      · have ha2 : runA ops (x :: absQ q) = some (l2, out) := habs ▸ ha
        right
        exact ⟨q2, l2, EXIT_SUCCESS :: out, by simp [runC, hstep, hc],
          by simp [runA, hstepA, ha2], hi2, habs2, hd2, hr2⟩
    | pushB x =>
      have hx : x ≠ 0 := hokop
      obtain ⟨q4, heq, hq4, habs, hdes4, hr4⟩ := q_push_back_spec hq hdes hr hx
      have hstep : stepC (DOp.pushB x) q = some (q4, EXIT_SUCCESS) := by
        simp [stepC, heq]
      have hstepA : stepA (DOp.pushB x) (absQ q) = some (absQ q ++ [x], EXIT_SUCCESS) := rfl
      rcases ih hq4 hdes4 hr4 hokrest with ⟨hc, ha⟩ | ⟨q2, l2, out, hc, ha, hi2, habs2, hd2, hr2⟩
      · have ha2 : runA ops (absQ q ++ [x]) = none := habs ▸ ha
        left
        exact ⟨by simp [runC, hstep, hc], by simp [runA, hstepA, ha2]⟩
      · have ha2 : runA ops (absQ q ++ [x]) = some (l2, out) := habs ▸ ha
        right
        exact ⟨q2, l2, EXIT_SUCCESS :: out, by simp [runC, hstep, hc],
          by simp [runA, hstepA, ha2], hi2, habs2, hd2, hr2⟩
    | popF =>
      cases addrs with
      | nil =>
        have hh : q.head = 0 := (InvL_head_nil hq).mp rfl
        have habs0 : absQ q = [] := by rw [absQ_eq_objsOf hq]; rfl
        have hpw : popWait q = true := by simp [popWait, hh, hdes]
        have hblocked : q_pop_front q = .blocked := by simp [q_pop_front, hdes, hpw]
        left
        refine ⟨by simp [runC, stepC, hblocked], ?_⟩
        rw [habs0]
        simp [runA, stepA]
      | cons a0 rest =>
        obtain ⟨q4, heq, hq4, habs, hdes4, hr4⟩ := q_pop_front_spec hq hdes hr
        have hstep : stepC DOp.popF q = some (q4, objAt q.heap a0) := by
          simp [stepC, heq]
        have habsq : absQ q = objAt q.heap a0 :: objsOf q.heap rest := by
          rw [absQ_eq_objsOf hq]; rfl
        have hstepA : stepA DOp.popF (absQ q) =
            some (objsOf q.heap rest, objAt q.heap a0) := by
          rw [habsq]; rfl
        rcases ih hq4 hdes4 hr4 hokrest with ⟨hc, ha⟩ | ⟨q2, l2, out, hc, ha, hi2, habs2, hd2, hr2⟩
        · have ha2 : runA ops (objsOf q.heap rest) = none := habs ▸ ha
          left
          exact ⟨by simp [runC, hstep, hc], by simp [runA, hstepA, ha2]⟩
        · have ha2 : runA ops (objsOf q.heap rest) = some (l2, out) := habs ▸ ha
          right
          exact ⟨q2, l2, objAt q.heap a0 :: out, by simp [runC, hstep, hc],
            by simp [runA, hstepA, ha2], hi2, habs2, hd2, hr2⟩
    | popB =>
      by_cases hne : addrs = []
      · subst hne
        have hh : q.head = 0 := (InvL_head_nil hq).mp rfl
        have habs0 : absQ q = [] := by rw [absQ_eq_objsOf hq]; rfl
        have hpw : popWait q = true := by simp [popWait, hh, hdes]
        have hblocked : q_pop_back q = .blocked := by simp [q_pop_back, hdes, hpw]
        left
        refine ⟨by simp [runC, stepC, hblocked], ?_⟩
        rw [habs0]
        simp [runA, stepA]
      · obtain ⟨init, t0, rfl⟩ := exists_snoc_of_ne_nil hne
        obtain ⟨q4, heq, hq4, habs, hdes4, hr4⟩ := q_pop_back_spec hq hdes hr
        have hstep : stepC DOp.popB q = some (q4, objAt q.heap t0) := by
          simp [stepC, heq]
        have habsq : absQ q = objsOf q.heap init ++ [objAt q.heap t0] := by
          rw [absQ_eq_objsOf hq]
          simp [objsOf]
        have hstepA : stepA DOp.popB (absQ q) =
            some (objsOf q.heap init, objAt q.heap t0) := by
          rw [habsq]
          simp [stepA, List.getLast?_concat, List.dropLast_concat]
        rcases ih hq4 hdes4 hr4 hokrest with ⟨hc, ha⟩ | ⟨q2, l2, out, hc, ha, hi2, habs2, hd2, hr2⟩
        · have ha2 : runA ops (objsOf q.heap init) = none := habs ▸ ha
          left
          exact ⟨by simp [runC, hstep, hc], by simp [runA, hstepA, ha2]⟩
        · have ha2 : runA ops (objsOf q.heap init) = some (l2, out) := habs ▸ ha
          right
          exact ⟨q2, l2, objAt q.heap t0 :: out, by simp [runC, hstep, hc],
            by simp [runA, hstepA, ha2], hi2, habs2, hd2, hr2⟩

/-- The heap with no allocated nodes. -/
def emptyHeap : Heap := fun _ => none

/-- A freshly initialized empty queue. -/
def emptyQR : QueueR :=
  { heap := emptyHeap, nextAddr := 0, head := 0, tail := 0,
    readers := 0, destroyed := false }

/-- A live queue holding the single payload 5 in a node at address 1. -/
def oneQR : QueueR :=
  { heap := hupd emptyHeap 1 ⟨5, 0, 0⟩, nextAddr := 1, head := 1, tail := 1,
    readers := 0, destroyed := false }

/-- An empty queue whose destroyed flag is set. -/
def deadQR : QueueR :=
  { heap := emptyHeap, nextAddr := 0, head := 0, tail := 0,
    readers := 0, destroyed := true }

theorem invL_emptyQR : InvL emptyQR [] := by
  constructor <;> dsimp only [emptyQR, emptyHeap]
  · exact ⟨rfl, rfl⟩
  · simp
  · intro b; simp
  · intro b hb; cases hb
  · exact Nat.zero_le _
  · intro b m hb; cases hb

theorem invL_oneQR : InvL oneQR [1] := by
  constructor <;> dsimp only [oneQR]
  · exact ⟨rfl, one_ne_zero, ⟨5, 0, 0⟩, hupd_self _ _ _, rfl, rfl, rfl⟩
  · simp
  · intro b
    by_cases hb : b = 1
    · subst hb; simp [hupd_self]
    · simp [hupd_other _ _ _ _ hb, emptyHeap, hb]
  · intro b hb
    simp at hb
    simp [hb]
  · simp
  · intro b m hb
    by_cases hb1 : b = 1
    · subst hb1
      rw [hupd_self] at hb
      cases hb
      decide
    · rw [hupd_other _ _ _ _ hb1] at hb
      cases hb

/-- C1: every single-threaded sequence of q_push_front/q_push_back/
q_pop_front/q_pop_back on an initialized, non-destroyed queue produces the
same outputs as the reference double-ended queue (blocking exactly when the
reference pop is undefined); in particular q_push_front(x) then q_pop_front()
returns x and leaves the queue empty, and q_push_front(1), q_push_front(2),
q_pop_back() returns 1. -/
theorem claim_C1 :
    (∀ (ops : List DOp) (q : QueueR), InvQ q → q.destroyed = false →
      q.readers = 0 → okOps ops →
      (runC ops q = none ∧ runA ops (absQ q) = none) ∨
      (∃ q2 l2 out, runC ops q = some (q2, out) ∧
        runA ops (absQ q) = some (l2, out) ∧ InvQ q2 ∧ absQ q2 = l2 ∧
        q2.destroyed = false ∧ q2.readers = 0)) ∧
    (∀ x : Nat, x ≠ 0 → ∃ q2, runC [DOp.pushF x, DOp.popF] emptyQR =
      some (q2, [EXIT_SUCCESS, x]) ∧ absQ q2 = []) ∧
    (∃ q3, runC [DOp.pushF 1, DOp.pushF 2, DOp.popB] emptyQR =
      some (q3, [EXIT_SUCCESS, EXIT_SUCCESS, 1])) := by
  have hsim : ∀ (ops : List DOp) (q : QueueR), InvQ q → q.destroyed = false →
      q.readers = 0 → okOps ops →
      (runC ops q = none ∧ runA ops (absQ q) = none) ∨
      (∃ q2 l2 out, runC ops q = some (q2, out) ∧
        runA ops (absQ q) = some (l2, out) ∧ InvQ q2 ∧ absQ q2 = l2 ∧
        q2.destroyed = false ∧ q2.readers = 0) := by
    intro ops q hq hdes hr hok
    obtain ⟨addrs, hqL⟩ := hq
    exact runC_runA hqL hdes hr hok
  refine ⟨hsim, ?_, ?_⟩
  · intro x hx
    have hok : okOps [DOp.pushF x, DOp.popF] := by
      intro op hop
      rcases List.mem_cons.mp hop with rfl | hop2
      · exact hx
      · rcases List.mem_cons.mp hop2 with rfl | hop3
        · exact trivial
        · cases hop3
    rcases hsim [DOp.pushF x, DOp.popF] emptyQR ⟨[], invL_emptyQR⟩ rfl rfl hok with
      ⟨hc, ha⟩ | ⟨q2, l2, out, hc, ha, -, habs2, -, -⟩
    · rw [show runA [DOp.pushF x, DOp.popF] (absQ emptyQR) =
        some ([], [EXIT_SUCCESS, x]) from rfl] at ha
      cases ha
    · rw [show runA [DOp.pushF x, DOp.popF] (absQ emptyQR) =
        some ([], [EXIT_SUCCESS, x]) from rfl] at ha
      simp only [Option.some.injEq, Prod.mk.injEq] at ha
      obtain ⟨rfl, rfl⟩ := ha
      exact ⟨q2, hc, habs2⟩
  · have hok : okOps [DOp.pushF 1, DOp.pushF 2, DOp.popB] := by
      intro op hop
      rcases List.mem_cons.mp hop with rfl | hop2
      · decide
      · rcases List.mem_cons.mp hop2 with rfl | hop3
        · decide
        · rcases List.mem_cons.mp hop3 with rfl | hop4
          · exact trivial
          · cases hop4
    rcases hsim [DOp.pushF 1, DOp.pushF 2, DOp.popB] emptyQR ⟨[], invL_emptyQR⟩
        rfl rfl hok with
      ⟨hc, ha⟩ | ⟨q2, l2, out, hc, ha, -, -, -, -⟩
    · rw [show runA [DOp.pushF 1, DOp.pushF 2, DOp.popB] (absQ emptyQR) =
        some ([2], [EXIT_SUCCESS, EXIT_SUCCESS, 1]) from rfl] at ha
      cases ha
    · rw [show runA [DOp.pushF 1, DOp.pushF 2, DOp.popB] (absQ emptyQR) =
        some ([2], [EXIT_SUCCESS, EXIT_SUCCESS, 1]) from rfl] at ha
      simp only [Option.some.injEq, Prod.mk.injEq] at ha
      obtain ⟨rfl, rfl⟩ := ha
      exact ⟨q2, hc⟩

/-- C1 witness: the roundtrip instance at payload 3 on the empty queue. -/
theorem claim_C1_witness : ∃ q2, runC [DOp.pushF 3, DOp.popF] emptyQR =
    some (q2, [EXIT_SUCCESS, 3]) ∧ absQ q2 = [] :=
  claim_C1.2.1 3 (by decide)

/-- C2: at the failing input — a push on an EMPTY queue whose node allocation
fails — the operation does not return failure with the state unchanged: since
create_first_node never checks the result of malloc, the assignment
`queue->head->object = object` dereferences a NULL pointer (undefined
behavior, modelled as crash). On a non-empty queue the allocation-failure
path does behave as the claim states. -/
theorem claim_C2 :
    (q_push_front emptyQR 7 false = Res.crash ∧
     q_push_back emptyQR 7 false = Res.crash) ∧
    (∀ (q : QueueR) (x : Nat), q.destroyed = false → q.readers = 0 → x ≠ 0 →
      q.head ≠ 0 → q.tail ≠ 0 →
      q_push_front q x false = Res.ok q EXIT_FAILURE ∧
      q_push_back q x false = Res.ok q EXIT_FAILURE) := by
  refine ⟨⟨rfl, rfl⟩, ?_⟩
  intro q x hdes hr hx hh ht
  exact ⟨q_push_front_allocFail hdes hr hx hh, q_push_back_allocFail hdes hr hx ht⟩

/-- C3: on a queue whose destroyed flag is set — whether it was set before
the call (the public operations) or while the thread waited (the post-wait
bodies) — each operation fails without mutating anything: pushes return
EXIT_FAILURE, pops return NULL, q_traverse returns EXIT_FAILURE without
invoking the callback, and head, tail, readers, destroyed are all unchanged
(the state returned is exactly the input state). -/
theorem claim_C3 : ∀ q : QueueR, q.destroyed = true →
    ∀ (x : Nat) (allocOk : Bool),
    q_push_front q x allocOk = .ok q EXIT_FAILURE ∧
    q_push_back q x allocOk = .ok q EXIT_FAILURE ∧
    q_pop_front q = .ok q 0 ∧
    q_pop_back q = .ok q 0 ∧
    q_traverse q = .ok q (EXIT_FAILURE, []) ∧
    q_deinit q = .ok q () ∧
    q_push_front_locked q x allocOk = .ok q EXIT_FAILURE ∧
    q_push_back_locked q x allocOk = .ok q EXIT_FAILURE ∧
    q_pop_front_locked q = .ok q 0 ∧
    q_pop_back_locked q = .ok q 0 ∧
    q_traverse_locked q = (q, EXIT_FAILURE, []) ∧
    q_deinit_locked q = q :=
  fun q hdes x allocOk => ops_on_destroyed q hdes x allocOk

/-- C3 witness: popping a destroyed queue returns NULL and changes nothing. -/
theorem claim_C3_witness : q_pop_front deadQR = Res.ok deadQR 0 :=
  (claim_C3 deadQR rfl 5 true).2.2.1

/-- C4 counterexample: q_init is one of the public operations named by the
claim, and calling it on a destroyed queue resets the destroyed flag to
false, so the flag does not stay true under every operation sequence. -/
theorem claim_C4_counterexample : ∃ qd : QueueR,
    q_deinit emptyQR = Res.ok qd () ∧ qd.destroyed = true ∧
    ((q_init qd).1).destroyed = false :=
  ⟨q_deinit_locked emptyQR, rfl, rfl, rfl⟩

/-- C4 (amended): once the destroyed flag is true, no subsequent
q_push_front/q_push_back/q_pop_front/q_pop_back/q_traverse/q_deinit ever
makes it false again (only re-initialization via q_init resets it); and at
the moment q_deinit sets the flag, every node has been freed and head and
tail are NULL. -/
theorem claim_C4 :
    (∀ (ops : List QOp) (q q2 : QueueR), q.destroyed = true →
      runQ ops q = some q2 → q2.destroyed = true) ∧
    (∀ (q : QueueR) (addrs : List Nat), InvL q addrs → q.destroyed = false →
      q.readers = 0 → ∃ q4, q_deinit q = .ok q4 () ∧ q4.destroyed = true ∧
        q4.head = 0 ∧ q4.tail = 0 ∧ (∀ x, q4.heap x = none)) := by
  constructor
  · intro ops q q2 hdes hrun
    rw [runQ_destroyed ops q hdes hrun]
    exact hdes
  · intro q addrs hq hdes hr
    obtain ⟨q4, h1, h2, h3, h4, h5, -, -⟩ := q_deinit_spec hq hdes hr
    exact ⟨q4, h1, h5, h3, h4, h2⟩

/-- C4 witness: the destroyed flag survives an operation sequence, and
deinit of the empty queue frees everything and tombstones it. -/
theorem claim_C4_witness : deadQR.destroyed = true ∧
    (∃ q4, q_deinit emptyQR = Res.ok q4 () ∧ q4.destroyed = true ∧
      q4.head = 0 ∧ q4.tail = 0 ∧ (∀ x, q4.heap x = none)) :=
  ⟨claim_C4.1 [QOp.popF] deadQR deadQR rfl rfl,
   claim_C4.2 emptyQR [] invL_emptyQR rfl rfl⟩

/-- C5 counterexample: on the empty, non-destroyed queue q_traverse does NOT
return — read_lock's wait condition (non-empty or destroyed) holds it. -/
theorem claim_C5_counterexample :
    emptyQR.head = 0 ∧ emptyQR.destroyed = false ∧
    q_traverse emptyQR = Res.blocked :=
  ⟨rfl, rfl, rfl⟩

/-- C5 (amended): for every empty queue whose destroyed flag is false, a call
to q_traverse blocks in read_lock until a push or deinit occurs (forever, in
a single-threaded execution), rather than returning. -/
theorem claim_C5 : ∀ q : QueueR, q.head = 0 → q.destroyed = false →
    q_traverse q = Res.blocked :=
  fun _ hh hdes => q_traverse_blocks hh hdes

/-- C5 witness: a re-initialized destroyed queue is empty and live, and
traversing it blocks. -/
theorem claim_C5_witness : q_traverse (q_init deadQR).1 = Res.blocked :=
  claim_C5 (q_init deadQR).1 rfl rfl

/-- C6: every public operation that returns preserves the structural
invariant — head is NULL iff tail is NULL (both exactly when the list is
empty), head's prev and tail's next are NULL, following next from head
reaches tail in exactly element-count steps with next/prev mutually
consistent, the heap holds exactly the list's nodes, and q_init (on a queue
with no allocated nodes) establishes the invariant. -/
theorem claim_C6 :
    (∀ (op : QOp) (q q2 : QueueR), InvQ q → qstep op q = some q2 → InvQ q2) ∧
    (∀ q : QueueR, (∀ a, q.heap a = none) → InvQ (q_init q).1) :=
  ⟨fun _ _ _ hq h => qstep_inv hq h, fun q h => q_init_inv q h⟩

/-- C6 witness: traversal preserves the invariant of the one-element queue,
and q_init establishes it on a node-free queue. -/
theorem claim_C6_witness : InvQ oneQR ∧ InvQ (q_init deadQR).1 :=
  ⟨claim_C6.1 QOp.trav oneQR oneQR ⟨[1], invL_oneQR⟩ rfl,
   claim_C6.2 deadQR fun _ => rfl⟩

/-- C7: q_deinit of a live quiescent queue returns after freeing every node
(the heap holds nothing afterwards; payloads are not represented in the node
heap and are never freed by the queue), clearing head and tail, and setting
the destroyed flag; the reader count is untouched. -/
theorem claim_C7 : ∀ (q : QueueR) (addrs : List Nat), InvL q addrs →
    q.destroyed = false → q.readers = 0 →
    ∃ q4, q_deinit q = Res.ok q4 () ∧ (∀ x, q4.heap x = none) ∧
      q4.head = 0 ∧ q4.tail = 0 ∧ q4.destroyed = true ∧ q4.readers = 0 := by
  intro q addrs hq hdes hr
  obtain ⟨q4, h1, h2, h3, h4, h5, h6, -⟩ := q_deinit_spec hq hdes hr
  exact ⟨q4, h1, h2, h3, h4, h5, h6⟩

/-- C7 witness: deinit of the one-element queue. -/
theorem claim_C7_witness :
    ∃ q4, q_deinit oneQR = Res.ok q4 () ∧ (∀ x, q4.heap x = none) ∧
      q4.head = 0 ∧ q4.tail = 0 ∧ q4.destroyed = true ∧ q4.readers = 0 :=
  claim_C7 oneQR [1] invL_oneQR rfl rfl

/-- C8: on a live non-empty queue, q_traverse passes exactly one payload per
element to the callback, in front-to-back (head-to-tail) order — the payload
list of the spine — and returns EXIT_SUCCESS with the queue state (heap,
head, tail, readers, destroyed) exactly as it was. -/
theorem claim_C8 : ∀ (q : QueueR) (addrs : List Nat), InvL q addrs →
    q.destroyed = false → q.head ≠ 0 →
    q_traverse q = Res.ok q (EXIT_SUCCESS, objsOf q.heap addrs) :=
  fun _ _ hq hdes hh => q_traverse_spec hq hdes hh

/-- C8 witness: traversing the one-element queue visits exactly payload 5. -/
theorem claim_C8_witness : q_traverse oneQR = Res.ok oneQR (EXIT_SUCCESS, [5]) :=
  claim_C8 oneQR [1] invL_oneQR rfl (by decide)

/-- C9: q_deinit is idempotent — after any completed q_deinit the destroyed
flag is set, so a second q_deinit takes the early `if (queue->destroyed)
return;` and returns with the state (head, tail, readers, destroyed) exactly
as it was. -/
theorem claim_C9 : ∀ q q2 : QueueR, q_deinit q = Res.ok q2 () →
    q_deinit q2 = Res.ok q2 () := by
  intro q q2 h
  have hd2 : q2.destroyed = true := by
    by_cases hdes : q.destroyed = true
    · rw [q_deinit, if_pos hdes] at h
      cases h
      exact hdes
    · rw [Bool.not_eq_true] at hdes
      by_cases hpw : pushWait q = true
      · rw [q_deinit, if_neg (by simp [hdes]), if_pos hpw] at h
        cases h
      · rw [q_deinit, if_neg (by simp [hdes]), if_neg hpw] at h
        cases h
        simp [q_deinit_locked, hdes]
  rw [q_deinit, if_pos hd2]

/-- C9 witness: a second deinit after deinit of the empty queue is a no-op. -/
theorem claim_C9_witness :
    q_deinit (q_deinit_locked emptyQR) = Res.ok (q_deinit_locked emptyQR) () :=
  claim_C9 emptyQR (q_deinit_locked emptyQR) rfl

/-- C10: pushes reject a NULL payload before taking the lock (so every stored
payload is non-NULL, as the invariant records), and consequently a pop that
returns NULL is exactly a failed pop: on an initialized queue q_pop_front and
q_pop_back return 0 precisely when the queue is destroyed — a successful pop
never returns the NULL sentinel. -/
theorem claim_C10 :
    (∀ (q : QueueR) (allocOk : Bool),
      q_push_front q 0 allocOk = Res.ok q EXIT_FAILURE ∧
      q_push_back q 0 allocOk = Res.ok q EXIT_FAILURE) ∧
    (∀ (q : QueueR) (addrs : List Nat), InvL q addrs →
      ∀ (q4 : QueueR) (v : Nat), q_pop_front q = Res.ok q4 v →
        (v = 0 ↔ q.destroyed = true)) ∧
    (∀ (q : QueueR) (addrs : List Nat), InvL q addrs →
      ∀ (q4 : QueueR) (v : Nat), q_pop_back q = Res.ok q4 v →
        (v = 0 ↔ q.destroyed = true)) := by
  refine ⟨?_, ?_, ?_⟩
  · intro q allocOk
    constructor <;> simp [q_push_front, q_push_back]
  · intro q addrs hq q4 v h
    by_cases hdes : q.destroyed = true
    · rw [q_pop_front, if_pos hdes] at h
      cases h
      simp [hdes]
    · rw [Bool.not_eq_true] at hdes
      by_cases hpw : popWait q = true
      · rw [q_pop_front, if_neg (by simp [hdes]), if_pos hpw] at h
        cases h
      · have hcomp : ¬(q.head = 0 ∨ ¬q.readers = 0) := by
          simpa [popWait, hdes] using hpw
        push_neg at hcomp
        obtain ⟨hh, hr⟩ := hcomp
        obtain ⟨a0, rest, rfl⟩ : ∃ a0 rest, addrs = a0 :: rest := by
          cases addrs with
          | nil => exact absurd ((InvL_head_nil hq).mp rfl) hh
          | cons a0 rest => exact ⟨a0, rest, rfl⟩
        have hv : objAt q.heap a0 ≠ 0 := by
          obtain ⟨hcur, ha00, nd, hnd, -, -⟩ := hq.seg
          rw [objAt_of_some hnd]
          exact hq.obj_ne _ _ hnd
        obtain ⟨qq, heq, -, -, -, -⟩ := q_pop_front_spec hq hdes hr
        rw [heq] at h
        cases h
        simp [hv, hdes]
  · intro q addrs hq q4 v h
    by_cases hdes : q.destroyed = true
    · rw [q_pop_back, if_pos hdes] at h
      cases h
      simp [hdes]
    · rw [Bool.not_eq_true] at hdes
      by_cases hpw : popWait q = true
      · rw [q_pop_back, if_neg (by simp [hdes]), if_pos hpw] at h
        cases h
      · have hcomp : ¬(q.head = 0 ∨ ¬q.readers = 0) := by
          simpa [popWait, hdes] using hpw
        push_neg at hcomp
        obtain ⟨hh, hr⟩ := hcomp
        have hne : addrs ≠ [] := fun h0 => hh ((InvL_head_nil hq).mp h0)
        obtain ⟨init, t0, rfl⟩ := exists_snoc_of_ne_nil hne
        have hv : objAt q.heap t0 ≠ 0 := by
          have hmem : t0 ∈ init ++ [t0] := List.mem_append_right _ (by simp)
          have hsome := (hq.dom t0).mpr hmem
          obtain ⟨nd, hnd⟩ := Option.isSome_iff_exists.mp hsome
          rw [objAt_of_some hnd]
          exact hq.obj_ne _ _ hnd
        obtain ⟨qq, heq, -, -, -, -⟩ := q_pop_back_spec hq hdes hr
        rw [heq] at h
        cases h
        simp [hv, hdes]

/-- C10 witness: a NULL push is rejected, and the successful pop of payload 5
is not the NULL sentinel. -/
theorem claim_C10_witness :
    q_push_front deadQR 0 true = Res.ok deadQR EXIT_FAILURE ∧
    (5 = 0 ↔ oneQR.destroyed = true) :=
  ⟨(claim_C10.1 deadQR true).1,
   claim_C10.2.1 oneQR [1] invL_oneQR _ 5 rfl⟩

/-- C2 witness: allocation failure on the non-empty one-element queue is
reported as failure with the state unchanged. -/
theorem claim_C2_witness :
    q_push_front oneQR 7 false = Res.ok oneQR EXIT_FAILURE ∧
    q_push_back oneQR 7 false = Res.ok oneQR EXIT_FAILURE :=
  claim_C2.2 oneQR 7 rfl rfl (by decide) (by decide) (by decide)
